import Mathlib

/-!
Verification of the stream-consumption and progress-state engine of the
Frontend-to-Backend client (`frontend/src/App.jsx`).

The development shallowly embeds the three layers of the client:

* the frame parser of `processStream` (buffer append, split on the
  double-newline terminator, pop the remainder, scan the lines of each
  terminated segment for the `event: ` and `data: ` markers);
* the progress state machine `updateProcessingStep` / `updateStep`
  (substring-matched phrase table over a fixed list of steps);
* the event dispatch switch of `processStream` (status / endpoints /
  completed / error / message_stop), operating on the decoded JSON payload
  of each frame.

Text handled by the parser is modelled as `List Char`; statuses, ids and
event names as `String`.  `JSON.parse` is a JavaScript built-in external to
the repository, so the dispatch layer takes each frame's payload as an
already-decoded value (`Except String Json`, the `error` case being a parse
failure carrying the message); the `Json` type models the values
`JSON.parse` can produce, with numbers as integers (no claim depends on
fractional values).  React state setters are modelled as pure state
transformations applied in program order.
-/

namespace FBApp

/-! ## The frame parser of `processStream` -/

/-- Adds a character to the front of the first segment of a split result,
extending the segment that is still being read. -/
def consHead (c : Char) : List (List Char) → List (List Char)
  | [] => [[c]]
  | s :: ss => (c :: s) :: ss

/-- `buffer.split('\n\n')`: greedy left-to-right split of the text on the
first occurrence of the double-newline frame terminator, exactly as
JavaScript `String.prototype.split` with a string separator. -/
def splitNN : List Char → List (List Char)
  | [] => [[]]
  | [c] => [[c]]
  | a :: b :: rest =>
    if a = '\n' ∧ b = '\n' then [] :: splitNN rest
    else consHead a (splitNN (b :: rest))

/-- `eventData.split('\n')`: split on single newlines. -/
def splitLines : List Char → List (List Char)
  | [] => [[]]
  | c :: rest => if c = '\n' then [] :: splitLines rest else consHead c (splitLines rest)

/-- The last segment of a split result: `events.pop() || ''`. -/
def lastSeg : List (List Char) → List Char
  | [] => []
  | s :: rest => if rest.isEmpty then s else lastSeg rest

/-- Whether the double-newline frame terminator occurs in the text. -/
def hasNN : List Char → Bool
  | [] => false
  | [_] => false
  | a :: b :: rest => if a = '\n' ∧ b = '\n' then true else hasNN (b :: rest)

/-- `String.prototype.trim()` (whitespace stripped from both ends); only its
emptiness is observed by the parser (`if (!eventData.trim()) continue`). -/
def jsTrim (s : List Char) : List Char :=
  ((s.dropWhile Char.isWhitespace).reverse.dropWhile Char.isWhitespace).reverse

/-- The `event: ` marker. -/
def eventMarker : List Char := "event: ".toList

/-- The `data: ` marker. -/
def dataMarker : List Char := "data: ".toList

/-- One line of the scan of `processStream`: an `event: ` line sets the
event type to the rest of the line, a `data: ` line sets the event content,
any other line is ignored. -/
def scanStep (acc : List Char × List Char) (line : List Char) : List Char × List Char :=
  if eventMarker.isPrefixOf line then (line.drop eventMarker.length, acc.2)
  else if dataMarker.isPrefixOf line then (acc.1, line.drop dataMarker.length)
  else acc

/-- The line scan of `processStream` over all lines of a candidate frame
(later marker lines overwrite earlier ones).  Both accumulators start as the
empty string. -/
def scanFrameLines (lines : List (List Char)) : List Char × List Char :=
  lines.foldl scanStep ([], [])

/-- Parsing one terminated segment: skipped when blank
(`if (!eventData.trim()) continue`), otherwise its lines are scanned, and the
frame is yielded only when both the event type and the event content are
nonempty (`if (!eventType || !eventContent) continue`). -/
def parseFrame (seg : List Char) : Option (List Char × List Char) :=
  if (jsTrim seg).isEmpty then none
  else if (scanFrameLines (splitLines seg)).1.isEmpty
      ∨ (scanFrameLines (splitLines seg)).2.isEmpty then none
  else some (scanFrameLines (splitLines seg))

/-- One iteration of the chunk loop: append the chunk to the buffer, split on
the terminator, keep the last segment as the new buffer, and yield the frames
of the terminated segments in order. -/
def feedChunk (st : List (List Char × List Char) × List Char) (chunk : List Char) :
    List (List Char × List Char) × List Char :=
  (st.1 ++ (splitNN (st.2 ++ chunk)).dropLast.filterMap parseFrame,
   lastSeg (splitNN (st.2 ++ chunk)))

/-- Feeding a whole sequence of chunks through the loop, starting from an
empty frame list and an empty buffer. -/
def feedChunks (chunks : List (List Char)) : List (List Char × List Char) × List Char :=
  chunks.foldl feedChunk ([], [])

/-! ## The progress state machine `updateProcessingStep` / `updateStep` -/

/-- One entry of the `processingSteps` state. -/
structure Step where
  id : String
  label : String
  completed : Bool
  active : Bool
deriving DecidableEq

/-- The initial `processingSteps` list of `App.jsx`. -/
def initialSteps : List Step :=
  [⟨"clone", "Cloning repository", false, false⟩,
   ⟨"extract", "Extracting API endpoints", false, false⟩,
   ⟨"schema", "Generating database schema", false, false⟩,
   ⟨"priority", "Prioritizing endpoints", false, false⟩,
   ⟨"generate", "Generating backend code (AI)", false, false⟩,
   ⟨"postman", "Creating Postman collection", false, false⟩,
   ⟨"construct", "Constructing Final codebase", false, false⟩]

/-- Whether `needle` occurs as a contiguous subsequence of `hay`, scanning
left to right as `String.prototype.indexOf` does. -/
def containsSeq (hay needle : List Char) : Bool :=
  needle.isPrefixOf hay ||
    match hay with
    | [] => false
    | _ :: rest => containsSeq rest needle

/-- JavaScript `status.includes(phrase)`: substring containment. -/
def includes (s phrase : String) : Bool :=
  containsSeq s.toList phrase.toList

/-- The flag assignment of `updateStep`: `'active'` sets `active` and clears
`completed`, `'completed'` sets `completed` and clears `active`, anything
else leaves the entry unchanged. -/
def setStepState (state : String) (s : Step) : Step :=
  if state = "active" then { s with active := true, completed := false }
  else if state = "completed" then { s with active := false, completed := true }
  else s

/-- `updateStep(steps, id, state)`: finds the first step with the given id
(`findIndex`) and assigns its flags in place; no-op when the id is absent. -/
def updateStep (steps : List Step) (id state : String) : List Step :=
  match steps with
  | [] => []
  | s :: rest =>
    if s.id = id then setStepState state s :: rest
    else s :: updateStep rest id state

/-- The ordered phrase table of `updateProcessingStep`: each entry pairs the
phrase matched by substring containment with the `updateStep` calls (id and
flag assignment, in call order) of its branch.  The else-if chain of the
source checks exactly these phrases in exactly this order, first match
wins. -/
def ruleTable : List (String × List (String × String)) :=
  [("Starting code generation", [("clone", "active")]),
   ("Cloning repository", [("clone", "active")]),
   ("cloned successfully", [("clone", "completed"), ("extract", "active")]),
   ("Extracting API endpoints", [("extract", "active")]),
   ("endpoints extracted successfully",
     [("extract", "completed"), ("schema", "active"), ("priority", "active")]),
   ("Generating database schema", [("schema", "active"), ("priority", "active")]),
   ("Database schema generated successfully",
     [("schema", "completed"), ("priority", "active")]),
   ("Setting API endpoint priorities", [("priority", "active")]),
   ("endpoints prioritized successfully",
     [("priority", "completed"), ("generate", "active")]),
   ("Generating backend code", [("generate", "active")]),
   ("Backend code generated successfully",
     [("generate", "completed"), ("postman", "active")]),
   ("Postman collection generated successfully",
     [("postman", "completed"), ("construct", "active")]),
   ("API codebase constructed and zipped successfully", [("construct", "completed")])]

/-- The first rule whose phrase the status text contains (the branch the
else-if chain takes). -/
def firstRule (status : String) : Option (String × List (String × String)) :=
  ruleTable.find? (fun r => includes status r.1)

/-- Applying the `updateStep` calls of one branch in order. -/
def applyEffects (steps : List Step) (effs : List (String × String)) : List Step :=
  effs.foldl (fun acc e => updateStep acc e.1 e.2) steps

/-- `updateProcessingStep(status)`: a falsy (empty) status returns
immediately; otherwise the first matching phrase's branch runs its
`updateStep` calls, and unmatched text leaves the list unchanged. -/
def updateProcessingStep (status : String) (steps : List Step) : List Step :=
  if status = "" then steps
  else
    match firstRule status with
    | none => steps
    | some r => applyEffects steps r.2

/-- Applying a sequence of status texts in order. -/
def applyAll (ss : List String) (steps : List Step) : List Step :=
  ss.foldl (fun acc status => updateProcessingStep status acc) steps

/-- The step ids mentioned by the effect of the phrase (if any) that a status
text matches. -/
def mentionedIds (status : String) : List String :=
  if status = "" then []
  else
    match firstRule status with
    | none => []
    | some r => r.2.map Prod.fst

/-- Looks up the first step with the given id, as
`processingSteps.find(step => step.id === id)` would. -/
def getStep : List Step → String → Option Step
  | [], _ => none
  | s :: rest, id => if s.id = id then some s else getStep rest id

/-! ## The event dispatch switch of `processStream`

`JSON.parse` is a JavaScript built-in, so each frame's payload enters the
dispatch as an already-decoded `Except String Json` value (`error` carrying
the message of a parse failure).  The `Json` type covers everything
`JSON.parse` can produce, with numbers as integers (no claim involves
fractional values, and only truthiness of numbers is ever observed). -/

/-- A decoded JSON value. -/
inductive Json where
  | null
  | bool (b : Bool)
  | num (n : Int)
  | str (s : String)
  | arr (elems : List Json)
  | obj (fields : List (String × Json))

/-- JavaScript property access `j[key]` on a decoded value: a field of an
object (parsed objects have unique keys), `undefined` (`none`) on anything
else that is not `null`. -/
def getField (j : Json) (key : String) : Option Json :=
  match j with
  | .obj fields => (fields.find? (fun f => f.1 == key)).map (fun f => f.2)
  | _ => none

/-- JavaScript truthiness of a decoded value. -/
def jsTruthy : Json → Bool
  | .null => false
  | .bool b => b
  | .num n => n != 0
  | .str s => s != ""
  | .arr _ => true
  | .obj _ => true

/-- Truthiness of a possibly-`undefined` value. -/
def truthyOpt : Option Json → Bool
  | none => false
  | some j => jsTruthy j

/-- JavaScript `v || d`: the left value when truthy, otherwise the
default. -/
def jsOr (v : Option Json) (d : Json) : Json :=
  match v with
  | some j => if jsTruthy j then j else d
  | none => d

/-- Property access on the parsed payload (`data.status`, `data.endpoints`,
…): reading a property of `null` throws a `TypeError`, which the
surrounding `try` of `processStream` catches; any other value yields the
field or `undefined`. -/
def propAccess (data : Json) (key : String) : Except String (Option Json) :=
  match data with
  | .null => .error ("Cannot read properties of null (reading '" ++ key ++ "')")
  | _ => .ok (getField data key)

/-- Whether a decoded value is `null`. -/
def isNullJson : Json → Bool
  | .null => true
  | _ => false

/-- One normalized endpoint record as built in the `endpoints` case
(`method`/`path`/`description` keep whatever JSON value the `||` chain
produces). -/
structure FormattedEndpoint where
  method : Json
  path : Json
  description : Json

/-- The normalization of one raw endpoint record:
`method: endpoint.method || 'GET'`,
`path: endpoint.endpointName || endpoint.path || ''`,
`description: endpoint.description || endpoint.summary || ''`. -/
def formatEndpoint (e : Json) : FormattedEndpoint :=
  { method := jsOr (getField e "method") (.str "GET")
    path := jsOr (getField e "endpointName") (jsOr (getField e "path") (.str ""))
    description := jsOr (getField e "description") (jsOr (getField e "summary") (.str "")) }

/-- The aggregate React state touched by the dispatch switch. -/
structure AppState where
  loading : Bool
  endpoints : List FormattedEndpoint
  projectData : Option Json
  processingSteps : List Step
  error : Option Json

/-- The state right after `handleClone` resets it and the stream starts:
loading, with empty endpoint list, no result, no error, and the initial
steps. -/
def initialAppState : AppState :=
  { loading := true
    endpoints := []
    projectData := none
    processingSteps := initialSteps
    error := none }

/-- Membership test of `Array.prototype.includes` with a string argument
(SameValueZero): only string elements can equal the phrase; object and
array elements compare by reference and never equal a string. -/
def arrIncludes (elems : List Json) (phrase : String) : Bool :=
  elems.any (fun e =>
    match e with
    | .str s => s = phrase
    | _ => false)

/-- The first rule whose phrase an array-valued status "includes" — when
`data.status` parses as an array, each `status.includes(phrase)` check of
the chain is array membership rather than substring containment. -/
def firstRuleArr (elems : List Json) : Option (String × List (String × String)) :=
  ruleTable.find? (fun r => arrIncludes elems r.1)

/-- `updateProcessingStep` on an array-valued status: the `!status` guard
passes (arrays are truthy), and the chain matches by membership. -/
def updateProcessingStepArr (elems : List Json) (steps : List Step) : List Step :=
  match firstRuleArr elems with
  | none => steps
  | some r => applyEffects steps r.2

/-- `setError(...)`. -/
def setJsError (st : AppState) (j : Json) : AppState := { st with error := some j }

/-- The message template of the catch handler:
`` setError(`Error parsing event data: ${error.message}`) ``. -/
def parseFailureMsg (msg : String) : String := "Error parsing event data: " ++ msg

/-- The `status` case: `updateProcessingStep(data.status)`.  A falsy status
returns immediately; a truthy string runs the phrase table by substring
containment; an array runs it by membership (`Array.prototype.includes`);
any other truthy value makes `status.includes` throw a `TypeError`, caught
by the surrounding handler. -/
def handleStatus (st : AppState) (data : Json) : AppState :=
  match propAccess data "status" with
  | .error m => setJsError st (.str (parseFailureMsg m))
  | .ok none => st
  | .ok (some v) =>
    if jsTruthy v then
      match v with
      | .str s => { st with processingSteps := updateProcessingStep s st.processingSteps }
      | .arr elems =>
        { st with processingSteps := updateProcessingStepArr elems st.processingSteps }
      | _ => setJsError st (.str (parseFailureMsg "status.includes is not a function"))
    else st

/-- The `endpoints` case: when `data.endpoints` is an array, the whole list
is replaced by the normalized records; a `null` element makes the `.map`
callback throw (reading `method` of `null`), caught by the surrounding
handler before `setEndpoints` runs. -/
def handleEndpoints (st : AppState) (data : Json) : AppState :=
  match propAccess data "endpoints" with
  | .error m => setJsError st (.str (parseFailureMsg m))
  | .ok (some (.arr elems)) =>
    if elems.any isNullJson then
      setJsError st (.str (parseFailureMsg "Cannot read properties of null (reading 'method')"))
    else { st with endpoints := elems.map formatEndpoint }
  | .ok _ => st

/-- The `completed` case: `if (data.result) setProjectData(data.result)`,
then `setLoading(false)`. -/
def handleCompleted (st : AppState) (data : Json) : AppState :=
  match propAccess data "result" with
  | .error m => setJsError st (.str (parseFailureMsg m))
  | .ok r =>
    { st with projectData := if truthyOpt r then r else st.projectData, loading := false }

/-- The `error` case: `setError(data.error || '…')`, then
`setLoading(false)`. -/
def handleError (st : AppState) (data : Json) : AppState :=
  match propAccess data "error" with
  | .error m => setJsError st (.str (parseFailureMsg m))
  | .ok v =>
    { st with
      error := some (jsOr v (.str "An unknown error occurred during code generation"))
      loading := false }

/-- The dispatch of one frame: a payload that failed to parse reports the
failure (`catch` → `setError`); otherwise the switch on the event type runs
the corresponding case, unknown event types being ignored. -/
def dispatchEvent (st : AppState) (eventType : String) (payload : Except String Json) :
    AppState :=
  match payload with
  | .error msg => setJsError st (.str (parseFailureMsg msg))
  | .ok data =>
    if eventType = "status" then handleStatus st data
    else if eventType = "endpoints" then handleEndpoints st data
    else if eventType = "completed" then handleCompleted st data
    else if eventType = "error" then handleError st data
    else if eventType = "message_stop" then { st with loading := false }
    else st

/-- Dispatching a sequence of decoded frames in arrival order. -/
def dispatchEvents (evs : List (String × Except String Json)) (st : AppState) : AppState :=
  evs.foldl (fun acc ev => dispatchEvent acc ev.1 ev.2) st

/-- Agreement of two states on everything except the `error` field. -/
def EqExceptError (a b : AppState) : Prop :=
  a.loading = b.loading ∧ a.endpoints = b.endpoints ∧ a.projectData = b.projectData
    ∧ a.processingSteps = b.processingSteps

/-- The amended normalization rule stated from the spec's words: each source
field contributes its value only when it is present with a truthy value;
otherwise the default applies (`'GET'`, the next field in precedence, or the
empty string). -/
def specFormatEndpoint (r : Json) : FormattedEndpoint :=
  { method :=
      match getField r "method" with
      | some m => if jsTruthy m then m else Json.str "GET"
      | none => Json.str "GET"
    path :=
      match getField r "endpointName" with
      | some n =>
        if jsTruthy n then n
        else
          match getField r "path" with
          | some p => if jsTruthy p then p else Json.str ""
          | none => Json.str ""
      | none =>
        match getField r "path" with
        | some p => if jsTruthy p then p else Json.str ""
        | none => Json.str ""
    description :=
      match getField r "description" with
      | some d =>
        if jsTruthy d then d
        else
          match getField r "summary" with
          | some s => if jsTruthy s then s else Json.str ""
          | none => Json.str ""
      | none =>
        match getField r "summary" with
        | some s => if jsTruthy s then s else Json.str ""
        | none => Json.str "" }

/-- Joining with the double-newline terminator, the inverse of `splitNN`. -/
def joinNN : List (List Char) → List Char
  | [] => []
  | s :: rest =>
    match rest with
    | [] => s
    | _ :: _ => s ++ '\n' :: '\n' :: joinNN rest

/-- How one entry can evolve under the state machine: unchanged, or left
with one of its two flags set. -/
def Evol (s s' : Step) : Prop :=
  s' = s ∨ s'.active = true ∨ s'.completed = true

/-- The flag discipline of one entry: `active` and `completed` never both
set. -/
def FlagsOK (l : List Step) : Prop :=
  ∀ s ∈ l, ¬(s.active = true ∧ s.completed = true)

/-! ### State machine lemmas -/

theorem setStepState_id (st : String) (s : Step) : (setStepState st s).id = s.id := by
  unfold setStepState
  split_ifs <;> rfl

theorem setStepState_label (st : String) (s : Step) :
    (setStepState st s).label = s.label := by
  unfold setStepState
  split_ifs <;> rfl

theorem getStep_updateStep_ne (l : List Step) (id id' st : String) (h : id' ≠ id) :
    getStep (updateStep l id st) id' = getStep l id' := by
  induction l with
  | nil => rfl
  | cons x rest ih =>
    by_cases hx : x.id = id
    · rw [updateStep, if_pos hx, getStep, setStepState_id]
      rw [hx, if_neg (Ne.symm h), getStep, if_neg (by rw [hx]; exact Ne.symm h)]
    · rw [updateStep, if_neg hx, getStep, getStep]
      by_cases hx' : x.id = id'
      · rw [if_pos hx', if_pos hx']
      · rw [if_neg hx', if_neg hx', ih]

theorem getStep_updateStep_eq (l : List Step) (id st : String) (s : Step)
    (h : getStep l id = some s) :
    getStep (updateStep l id st) id = some (setStepState st s) := by
  induction l with
  | nil => exact absurd h (by simp [getStep])
  | cons x rest ih =>
    by_cases hx : x.id = id
    · rw [getStep, if_pos hx] at h
      obtain rfl : x = s := Option.some.inj h
      rw [updateStep, if_pos hx, getStep, setStepState_id, if_pos hx]
    · rw [getStep, if_neg hx] at h
      rw [updateStep, if_neg hx, getStep, if_neg hx]
      exact ih h

theorem getStep_updateStep_isSome (l : List Step) (id id' st : String) :
    (getStep (updateStep l id' st) id).isSome = (getStep l id).isSome := by
  by_cases h : id = id'
  · subst h
    cases hg : getStep l id with
    | none =>
      cases hg2 : getStep (updateStep l id st) id with
      | none => rfl
      | some s' =>
        exfalso
        induction l with
        | nil => simp [updateStep, getStep] at hg2
        | cons x rest ih =>
          by_cases hx : x.id = id
          · rw [getStep, if_pos hx] at hg; exact Option.noConfusion hg
          · rw [getStep, if_neg hx] at hg
            rw [updateStep, if_neg hx, getStep, if_neg hx] at hg2
            exact ih hg hg2
    | some s => rw [getStep_updateStep_eq l id st s hg]; rfl
  · rw [getStep_updateStep_ne l id' id st h]

theorem getStep_applyEffects_isSome (effs : List (String × String)) (l : List Step)
    (id : String) :
    (getStep (applyEffects l effs) id).isSome = (getStep l id).isSome := by
  induction effs generalizing l with
  | nil => rfl
  | cons e effs ih =>
    show (getStep (applyEffects (updateStep l e.1 e.2) effs) id).isSome = _
    rw [ih, getStep_updateStep_isSome]

theorem getStep_ups_isSome (status : String) (l : List Step) (id : String) :
    (getStep (updateProcessingStep status l) id).isSome = (getStep l id).isSome := by
  unfold updateProcessingStep
  by_cases h : status = ""
  · rw [if_pos h]
  · rw [if_neg h]
    cases hr : firstRule status with
    | none => rfl
    | some r => exact getStep_applyEffects_isSome r.2 l id

theorem getStep_applyAll_isSome (ss : List String) (l : List Step) (id : String) :
    (getStep (applyAll ss l) id).isSome = (getStep l id).isSome := by
  induction ss generalizing l with
  | nil => rfl
  | cons s ss ih =>
    show (getStep (applyAll ss (updateProcessingStep s l)) id).isSome = _
    rw [ih, getStep_ups_isSome]

/-- C3.  Concurrent-step rule: after any history of statuses, a status
matching the extraction-success phrase (and no earlier phrase of the table)
makes both `schema` and `priority` active at once, and a subsequent status
matching the schema-success phrase (and no earlier phrase) completes
`schema` while leaving `priority` active — not pending, not completed. -/
theorem concurrent_step_rule (prior : List String) (s1 s2 : String)
    (h1 : includes s1 "endpoints extracted successfully" = true)
    (h1a : includes s1 "Starting code generation" = false)
    (h1b : includes s1 "Cloning repository" = false)
    (h1c : includes s1 "cloned successfully" = false)
    (h1d : includes s1 "Extracting API endpoints" = false)
    (h2 : includes s2 "Database schema generated successfully" = true)
    (h2a : includes s2 "Starting code generation" = false)
    (h2b : includes s2 "Cloning repository" = false)
    (h2c : includes s2 "cloned successfully" = false)
    (h2d : includes s2 "Extracting API endpoints" = false)
    (h2e : includes s2 "endpoints extracted successfully" = false)
    (h2f : includes s2 "Generating database schema" = false) :
    ((getStep (updateProcessingStep s1 (applyAll prior initialSteps)) "schema").map
        (fun s => (s.active, s.completed)) = some (true, false))
    ∧ ((getStep (updateProcessingStep s1 (applyAll prior initialSteps)) "priority").map
        (fun s => (s.active, s.completed)) = some (true, false))
    ∧ ((getStep (updateProcessingStep s2
          (updateProcessingStep s1 (applyAll prior initialSteps))) "schema").map
        (fun s => (s.active, s.completed)) = some (false, true))
    ∧ ((getStep (updateProcessingStep s2
          (updateProcessingStep s1 (applyAll prior initialSteps))) "priority").map
        (fun s => (s.active, s.completed)) = some (true, false)) := by
  set M := applyAll prior initialSteps with hM
  have hs1ne : s1 ≠ "" := by
    intro hc
    rw [hc] at h1
    exact absurd h1 (by decide)
  have hs2ne : s2 ≠ "" := by
    intro hc
    rw [hc] at h2
    exact absurd h2 (by decide)
  have hfr1 : firstRule s1 =
      some ("endpoints extracted successfully",
        [("extract", "completed"), ("schema", "active"), ("priority", "active")]) := by
    simp [firstRule, ruleTable, List.find?, h1, h1a, h1b, h1c, h1d]
  have hfr2 : firstRule s2 =
      some ("Database schema generated successfully",
        [("schema", "completed"), ("priority", "active")]) := by
    simp [firstRule, ruleTable, List.find?, h2, h2a, h2b, h2c, h2d, h2e, h2f]
  have hm1 : updateProcessingStep s1 M =
      updateStep (updateStep (updateStep M "extract" "completed") "schema" "active")
        "priority" "active" := by
    rw [updateProcessingStep, if_neg hs1ne, hfr1]
    rfl
  have hm2 : updateProcessingStep s2 (updateProcessingStep s1 M) =
      updateStep (updateStep (updateProcessingStep s1 M) "schema" "completed")
        "priority" "active" := by
    rw [updateProcessingStep, if_neg hs2ne, hfr2]
    rfl
  have hSsome : (getStep M "schema").isSome = true := by
    rw [hM, getStep_applyAll_isSome]
    decide
  obtain ⟨s0, hs0⟩ := Option.isSome_iff_exists.mp hSsome
  have hPsome : (getStep M "priority").isSome = true := by
    rw [hM, getStep_applyAll_isSome]
    decide
  obtain ⟨p0, hp0⟩ := Option.isSome_iff_exists.mp hPsome
  have g1 : getStep (updateProcessingStep s1 M) "schema" = some (setStepState "active" s0) := by
    rw [hm1, getStep_updateStep_ne _ _ _ _ (by decide : ("schema" : String) ≠ "priority")]
    exact getStep_updateStep_eq _ _ _ _ (by
      rw [getStep_updateStep_ne _ _ _ _ (by decide : ("schema" : String) ≠ "extract")]
      exact hs0)
  have g2 : getStep (updateProcessingStep s1 M) "priority" = some (setStepState "active" p0) := by
    rw [hm1]
    exact getStep_updateStep_eq _ _ _ _ (by
      rw [getStep_updateStep_ne _ _ _ _ (by decide : ("priority" : String) ≠ "schema"),
        getStep_updateStep_ne _ _ _ _ (by decide : ("priority" : String) ≠ "extract")]
      exact hp0)
  have g3 : getStep (updateProcessingStep s2 (updateProcessingStep s1 M)) "schema" =
      some (setStepState "completed" (setStepState "active" s0)) := by
    rw [hm2, getStep_updateStep_ne _ _ _ _ (by decide : ("schema" : String) ≠ "priority")]
    exact getStep_updateStep_eq _ _ _ _ g1
  have g4 : getStep (updateProcessingStep s2 (updateProcessingStep s1 M)) "priority" =
      some (setStepState "active" (setStepState "active" p0)) := by
    rw [hm2]
    exact getStep_updateStep_eq _ _ _ _ (by
      rw [getStep_updateStep_ne _ _ _ _ (by decide : ("priority" : String) ≠ "schema")]
      exact g2)
  refine ⟨?_, ?_, ?_, ?_⟩ <;> simp [g1, g2, g3, g4, setStepState]

/-- Witness for C3 at the literal pipeline phrases, with an empty prior
history. -/
theorem concurrent_step_rule_witness :
    ((getStep (updateProcessingStep "endpoints extracted successfully"
          (applyAll [] initialSteps)) "schema").map
        (fun s => (s.active, s.completed)) = some (true, false))
    ∧ ((getStep (updateProcessingStep "endpoints extracted successfully"
          (applyAll [] initialSteps)) "priority").map
        (fun s => (s.active, s.completed)) = some (true, false))
    ∧ ((getStep (updateProcessingStep "Database schema generated successfully"
          (updateProcessingStep "endpoints extracted successfully"
            (applyAll [] initialSteps))) "schema").map
        (fun s => (s.active, s.completed)) = some (false, true))
    ∧ ((getStep (updateProcessingStep "Database schema generated successfully"
          (updateProcessingStep "endpoints extracted successfully"
            (applyAll [] initialSteps))) "priority").map
        (fun s => (s.active, s.completed)) = some (true, false)) :=
  concurrent_step_rule [] "endpoints extracted successfully"
    "Database schema generated successfully"
    (by decide) (by decide) (by decide) (by decide) (by decide)
    (by decide) (by decide) (by decide) (by decide) (by decide) (by decide) (by decide)

theorem updateStep_getElem?_rev (l : List Step) (id st : String) (i : Nat) (s' : Step)
    (h : (updateStep l id st)[i]? = some s') :
    ∃ s, l[i]? = some s ∧ (s' = s ∨ s' = setStepState st s) := by
  induction l generalizing i with
  | nil => simp [updateStep] at h
  | cons x rest ih =>
    by_cases hx : x.id = id
    · rw [updateStep, if_pos hx] at h
      cases i with
      | zero =>
        rw [List.getElem?_cons_zero] at h
        exact ⟨x, List.getElem?_cons_zero, Or.inr (Option.some.inj h).symm⟩
      | succ n =>
        rw [List.getElem?_cons_succ] at h
        exact ⟨s', by rw [List.getElem?_cons_succ]; exact h, Or.inl rfl⟩
    · rw [updateStep, if_neg hx] at h
      cases i with
      | zero =>
        rw [List.getElem?_cons_zero] at h
        exact ⟨x, List.getElem?_cons_zero, Or.inl (Option.some.inj h).symm⟩
      | succ n =>
        rw [List.getElem?_cons_succ] at h
        obtain ⟨s, hs, ho⟩ := ih n h
        exact ⟨s, by rw [List.getElem?_cons_succ]; exact hs, ho⟩

theorem updateStep_getElem?_ne (l : List Step) (id st : String) (i : Nat) (s : Step)
    (h : l[i]? = some s) (hne : s.id ≠ id) :
    (updateStep l id st)[i]? = some s := by
  induction l generalizing i with
  | nil => simp at h
  | cons x rest ih =>
    by_cases hx : x.id = id
    · rw [updateStep, if_pos hx]
      cases i with
      | zero =>
        rw [List.getElem?_cons_zero] at h
        obtain rfl := Option.some.inj h
        exact absurd hx hne
      | succ n =>
        rw [List.getElem?_cons_succ] at h
        rw [List.getElem?_cons_succ]
        exact h
    · rw [updateStep, if_neg hx]
      cases i with
      | zero =>
        rw [List.getElem?_cons_zero] at h
        rw [List.getElem?_cons_zero]
        exact h
      | succ n =>
        rw [List.getElem?_cons_succ] at h
        rw [List.getElem?_cons_succ]
        exact ih n h

theorem evol_refl (s : Step) : Evol s s := Or.inl rfl

theorem evol_trans {a b c : Step} (h1 : Evol a b) (h2 : Evol b c) : Evol a c := by
  cases h2 with
  | inl h => rw [h]; exact h1
  | inr h => exact Or.inr h

theorem setStepState_evol (st : String) (s : Step) : Evol s (setStepState st s) := by
  unfold setStepState Evol
  split_ifs <;> simp

theorem updateStep_evol (l : List Step) (id st : String) (i : Nat) (s' : Step)
    (h : (updateStep l id st)[i]? = some s') :
    ∃ s, l[i]? = some s ∧ Evol s s' := by
  obtain ⟨s, hs, ho⟩ := updateStep_getElem?_rev l id st i s' h
  refine ⟨s, hs, ?_⟩
  cases ho with
  | inl he => rw [he]; exact evol_refl s
  | inr he => rw [he]; exact setStepState_evol st s

theorem applyEffects_evol (effs : List (String × String)) (l : List Step) (i : Nat)
    (s' : Step) (h : (applyEffects l effs)[i]? = some s') :
    ∃ s, l[i]? = some s ∧ Evol s s' := by
  induction effs generalizing l with
  | nil => exact ⟨s', h, evol_refl s'⟩
  | cons e effs ih =>
    obtain ⟨t, ht, htev⟩ := ih (updateStep l e.1 e.2) h
    obtain ⟨s, hs, hsev⟩ := updateStep_evol l e.1 e.2 i t ht
    exact ⟨s, hs, evol_trans hsev htev⟩

theorem ups_evol (status : String) (l : List Step) (i : Nat) (s' : Step)
    (h : (updateProcessingStep status l)[i]? = some s') :
    ∃ s, l[i]? = some s ∧ Evol s s' := by
  unfold updateProcessingStep at h
  by_cases hs : status = ""
  · rw [if_pos hs] at h
    exact ⟨s', h, evol_refl s'⟩
  · rw [if_neg hs] at h
    cases hr : firstRule status with
    | none => rw [hr] at h; exact ⟨s', h, evol_refl s'⟩
    | some r => rw [hr] at h; exact applyEffects_evol r.2 l i s' h

theorem applyAll_evol (ss : List String) (l : List Step) (i : Nat) (s' : Step)
    (h : (applyAll ss l)[i]? = some s') :
    ∃ s, l[i]? = some s ∧ Evol s s' := by
  induction ss generalizing l with
  | nil => exact ⟨s', h, evol_refl s'⟩
  | cons st ss ih =>
    obtain ⟨t, ht, htev⟩ := ih (updateProcessingStep st l) h
    obtain ⟨s, hs, hsev⟩ := ups_evol st l i t ht
    exact ⟨s, hs, evol_trans hsev htev⟩

theorem applyEffects_unmentioned (effs : List (String × String)) (l : List Step)
    (i : Nat) (s : Step) (h : l[i]? = some s) (hne : ∀ e ∈ effs, s.id ≠ e.1) :
    (applyEffects l effs)[i]? = some s := by
  induction effs generalizing l with
  | nil => exact h
  | cons e effs ih =>
    exact ih (updateStep l e.1 e.2)
      (updateStep_getElem?_ne l e.1 e.2 i s h (hne e (by simp)))
      (fun e' he' => hne e' (by simp [he']))

theorem ups_unmentioned (status : String) (l : List Step) (i : Nat) (s : Step)
    (h : l[i]? = some s) (hm : ¬ s.id ∈ mentionedIds status) :
    (updateProcessingStep status l)[i]? = some s := by
  unfold updateProcessingStep
  unfold mentionedIds at hm
  by_cases hs : status = ""
  · rw [if_pos hs]; exact h
  · rw [if_neg hs]
    rw [if_neg hs] at hm
    cases hr : firstRule status with
    | none => exact h
    | some r =>
      rw [hr] at hm
      refine applyEffects_unmentioned r.2 l i s h ?_
      intro e he hc
      exact hm (List.mem_map.mpr ⟨e, he, hc.symm⟩)

theorem applyAll_unmentioned (ss : List String) (l : List Step) (i : Nat) (s : Step)
    (h : l[i]? = some s) (hm : ∀ status ∈ ss, ¬ s.id ∈ mentionedIds status) :
    (applyAll ss l)[i]? = some s := by
  induction ss generalizing l with
  | nil => exact h
  | cons st ss ih =>
    exact ih (updateProcessingStep st l)
      (ups_unmentioned st l i s h (hm st (by simp)))
      (fun status hst => hm status (by simp [hst]))

/-- C4.  Step monotonicity: along any sequence of status applications a step
that is `completed` at some point is never `pending` (both flags false) at
any later point, and a step whose id is not mentioned by the effect of any
matched phrase of the sequence is unchanged. -/
theorem step_monotonicity :
    (∀ (ss1 ss2 : List String) (steps : List Step) (i : Nat) (s s' : Step),
      (applyAll ss1 steps)[i]? = some s → s.completed = true →
      (applyAll ss2 (applyAll ss1 steps))[i]? = some s' →
      ¬(s'.active = false ∧ s'.completed = false))
    ∧ (∀ (ss : List String) (steps : List Step) (i : Nat) (s : Step),
      steps[i]? = some s → (∀ status ∈ ss, ¬ s.id ∈ mentionedIds status) →
      (applyAll ss steps)[i]? = some s) := by
  constructor
  · intro ss1 ss2 steps i s s' h1 hc h2 ⟨hna, hnc⟩
    obtain ⟨t, ht, htev⟩ := applyAll_evol ss2 (applyAll ss1 steps) i s' h2
    obtain rfl : s = t := Option.some.inj (h1.symm.trans ht)
    cases htev with
    | inl he => rw [he] at hnc; rw [hnc] at hc; exact Bool.noConfusion hc
    | inr he =>
      cases he with
      | inl ha => rw [hna] at ha; exact Bool.noConfusion ha
      | inr hcc => rw [hnc] at hcc; exact Bool.noConfusion hcc
  · exact applyAll_unmentioned

/-- Witness for C4: `clone` is completed by the clone-success phrase and is
not returned to pending by a later unrelated phrase, and `schema` (index 2),
unmentioned by that history, is unchanged. -/
theorem step_monotonicity_witness :
    ¬((⟨"clone", "Cloning repository", true, false⟩ : Step).active = false
        ∧ (⟨"clone", "Cloning repository", true, false⟩ : Step).completed = false)
    ∧ (applyAll ["Repo cloned successfully"] initialSteps)[2]?
        = some ⟨"schema", "Generating database schema", false, false⟩ :=
  ⟨step_monotonicity.1 ["Repo cloned successfully"] ["Extracting API endpoints"]
      initialSteps 0
      ⟨"clone", "Cloning repository", true, false⟩
      ⟨"clone", "Cloning repository", true, false⟩
      (by decide) (by decide) (by decide),
   step_monotonicity.2 ["Repo cloned successfully"] initialSteps 2
      ⟨"schema", "Generating database schema", false, false⟩
      (by decide) (by decide)⟩

/-- C9.  Unrecognized status text is a no-op: a status containing none of
the thirteen recognized phrases leaves the step list unchanged (and the
state machine is a total function, it never raises). -/
theorem unrecognized_status_noop (s : String) (steps : List Step)
    (h1 : includes s "Starting code generation" = false)
    (h2 : includes s "Cloning repository" = false)
    (h3 : includes s "cloned successfully" = false)
    (h4 : includes s "Extracting API endpoints" = false)
    (h5 : includes s "endpoints extracted successfully" = false)
    (h6 : includes s "Generating database schema" = false)
    (h7 : includes s "Database schema generated successfully" = false)
    (h8 : includes s "Setting API endpoint priorities" = false)
    (h9 : includes s "endpoints prioritized successfully" = false)
    (h10 : includes s "Generating backend code" = false)
    (h11 : includes s "Backend code generated successfully" = false)
    (h12 : includes s "Postman collection generated successfully" = false)
    (h13 : includes s "API codebase constructed and zipped successfully" = false) :
    updateProcessingStep s steps = steps := by
  by_cases hs : s = ""
  · rw [updateProcessingStep, if_pos hs]
  · have hfr : firstRule s = none := by
      simp [firstRule, ruleTable, List.find?, h1, h2, h3, h4, h5, h6, h7, h8, h9,
        h10, h11, h12, h13]
    rw [updateProcessingStep, if_neg hs, hfr]

/-- Witness for C9 at a status text matching no phrase. -/
theorem unrecognized_status_noop_witness :
    updateProcessingStep "Deploying to production" initialSteps = initialSteps :=
  unrecognized_status_noop "Deploying to production" initialSteps
    (by decide) (by decide) (by decide) (by decide) (by decide) (by decide)
    (by decide) (by decide) (by decide) (by decide) (by decide) (by decide) (by decide)

theorem updateStep_mem (l : List Step) (id st : String) (s' : Step)
    (h : s' ∈ updateStep l id st) :
    s' ∈ l ∨ ∃ s, s ∈ l ∧ s' = setStepState st s := by
  induction l with
  | nil => simp [updateStep] at h
  | cons x rest ih =>
    by_cases hx : x.id = id
    · rw [updateStep, if_pos hx] at h
      rcases List.mem_cons.mp h with he | hm
      · exact Or.inr ⟨x, by simp, he⟩
      · exact Or.inl (List.mem_cons.mpr (Or.inr hm))
    · rw [updateStep, if_neg hx] at h
      rcases List.mem_cons.mp h with he | hm
      · exact Or.inl (by simp [he])
      · rcases ih hm with hl | ⟨s, hs, he⟩
        · exact Or.inl (List.mem_cons.mpr (Or.inr hl))
        · exact Or.inr ⟨s, List.mem_cons.mpr (Or.inr hs), he⟩

theorem setStepState_flagsOK (st : String) (s : Step)
    (h : ¬(s.active = true ∧ s.completed = true)) :
    ¬((setStepState st s).active = true ∧ (setStepState st s).completed = true) := by
  unfold setStepState
  split_ifs <;> simp_all

theorem updateStep_flagsOK (l : List Step) (id st : String) (h : FlagsOK l) :
    FlagsOK (updateStep l id st) := by
  intro s' hs'
  rcases updateStep_mem l id st s' hs' with hm | ⟨s, hs, he⟩
  · exact h s' hm
  · rw [he]; exact setStepState_flagsOK st s (h s hs)

theorem applyEffects_flagsOK (effs : List (String × String)) (l : List Step)
    (h : FlagsOK l) : FlagsOK (applyEffects l effs) := by
  induction effs generalizing l with
  | nil => exact h
  | cons e effs ih => exact ih (updateStep l e.1 e.2) (updateStep_flagsOK l e.1 e.2 h)

theorem ups_flagsOK (status : String) (l : List Step) (h : FlagsOK l) :
    FlagsOK (updateProcessingStep status l) := by
  unfold updateProcessingStep
  by_cases hs : status = ""
  · rw [if_pos hs]; exact h
  · rw [if_neg hs]
    cases hr : firstRule status with
    | none => exact h
    | some r => exact applyEffects_flagsOK r.2 l h

theorem applyAll_flagsOK (ss : List String) (l : List Step) (h : FlagsOK l) :
    FlagsOK (applyAll ss l) := by
  induction ss generalizing l with
  | nil => exact h
  | cons st ss ih => exact ih (updateProcessingStep st l) (ups_flagsOK st l h)

/-- C10.  Mutual exclusion of the step flags: from the initial step list, no
sequence of status applications ever produces a step with both `active` and
`completed` set, and every effectual `updateStep` call leaves the touched
entry with exactly one of the two flags set. -/
theorem step_flags_mutual_exclusion :
    (∀ (ss : List String) (s : Step), s ∈ applyAll ss initialSteps →
      ¬(s.active = true ∧ s.completed = true))
    ∧ (∀ (l : List Step) (id st : String) (s' : Step),
      st = "active" ∨ st = "completed" → s' ∈ updateStep l id st →
      s' ∈ l ∨ (s'.active = true ∧ s'.completed = false)
        ∨ (s'.active = false ∧ s'.completed = true)) := by
  constructor
  · intro ss s hs
    refine applyAll_flagsOK ss initialSteps ?_ s hs
    intro t ht
    simp only [initialSteps, List.mem_cons, List.not_mem_nil, or_false] at ht
    rcases ht with h | h | h | h | h | h | h <;> subst h <;> simp
  · intro l id st s' hst hs'
    rcases updateStep_mem l id st s' hs' with hm | ⟨s, hs, he⟩
    · exact Or.inl hm
    · rw [he]
      cases hst with
      | inl ha => rw [ha]; exact Or.inr (Or.inl (by simp [setStepState]))
      | inr hc => rw [hc]; exact Or.inr (Or.inr (by simp [setStepState]))

/-- Witness for C10 after a status that activates `clone`. -/
theorem step_flags_mutual_exclusion_witness :
    ¬((⟨"clone", "Cloning repository", false, true⟩ : Step).active = true
        ∧ (⟨"clone", "Cloning repository", false, true⟩ : Step).completed = true)
    ∧ ((⟨"clone", "Cloning repository", false, true⟩ : Step) ∈ initialSteps
        ∨ ((⟨"clone", "Cloning repository", false, true⟩ : Step).active = true
            ∧ (⟨"clone", "Cloning repository", false, true⟩ : Step).completed = false)
        ∨ ((⟨"clone", "Cloning repository", false, true⟩ : Step).active = false
            ∧ (⟨"clone", "Cloning repository", false, true⟩ : Step).completed = true)) :=
  ⟨step_flags_mutual_exclusion.1 ["Cloning repository"]
      ⟨"clone", "Cloning repository", false, true⟩ (by decide),
   step_flags_mutual_exclusion.2 initialSteps "clone" "active"
      ⟨"clone", "Cloning repository", false, true⟩ (Or.inl rfl) (by decide)⟩

/-! ### Splitter lemmas -/

theorem consHead_ne_nil (c : Char) (l : List (List Char)) : consHead c l ≠ [] := by
  cases l <;> simp [consHead]

theorem splitNN_nil : splitNN [] = [[]] := rfl

theorem splitNN_one (c : Char) : splitNN [c] = [[c]] := rfl

theorem splitNN_cons2 (a b : Char) (rest : List Char) :
    splitNN (a :: b :: rest) =
      if a = '\n' ∧ b = '\n' then [] :: splitNN rest
      else consHead a (splitNN (b :: rest)) := rfl

theorem splitNN_ne_nil (s : List Char) : splitNN s ≠ [] := by
  induction s using splitNN.induct with
  | case1 => rw [splitNN_nil]; simp
  | case2 c => rw [splitNN_one]; simp
  | case3 a b rest h ih => rw [splitNN_cons2, if_pos h]; simp
  | case4 a b rest h ih => rw [splitNN_cons2, if_neg h]; exact consHead_ne_nil _ _

theorem joinNN_consHead (c : Char) (l : List (List Char)) (h : l ≠ []) :
    joinNN (consHead c l) = c :: joinNN l := by
  match l with
  | [] => exact absurd rfl h
  | [s] => rfl
  | s :: t :: rest => rfl

theorem joinNN_cons_ne (s : List Char) (l : List (List Char)) (h : l ≠ []) :
    joinNN (s :: l) = s ++ '\n' :: '\n' :: joinNN l := by
  match l with
  | [] => exact absurd rfl h
  | t :: rest => rfl

theorem joinNN_splitNN (s : List Char) : joinNN (splitNN s) = s := by
  induction s using splitNN.induct with
  | case1 => rfl
  | case2 c => rfl
  | case3 a b rest h ih =>
    rw [splitNN_cons2, if_pos h, joinNN_cons_ne _ _ (splitNN_ne_nil rest), ih]
    obtain ⟨ha, hb⟩ := h
    subst ha; subst hb
    rfl
  | case4 a b rest h ih =>
    rw [splitNN_cons2, if_neg h, joinNN_consHead _ _ (splitNN_ne_nil (b :: rest)), ih]

theorem splitNN_singleton {s p : List Char} (h : splitNN s = [p]) : p = s := by
  have := joinNN_splitNN s
  rw [h] at this
  simpa [joinNN] using this

theorem dropLast_cons_ne {α : Type} (x : α) (l : List α) (h : l ≠ []) :
    (x :: l).dropLast = x :: l.dropLast := by
  cases l with
  | nil => exact absurd rfl h
  | cons y ys => rfl

theorem lastSeg_cons (x : List Char) (l : List (List Char)) (h : l ≠ []) :
    lastSeg (x :: l) = lastSeg l := by
  cases l with
  | nil => exact absurd rfl h
  | cons y ys => simp [lastSeg]

/-- The fundamental compositionality of the greedy splitter: splitting
`s ++ t` first produces all terminated segments of `s`, then continues by
splitting the unterminated remainder of `s` extended with `t`. -/
theorem splitNN_append (s t : List Char) :
    splitNN (s ++ t) =
      (splitNN s).dropLast ++ splitNN (lastSeg (splitNN s) ++ t) := by
  induction s using splitNN.induct with
  | case1 => rw [splitNN_nil]; simp [lastSeg]
  | case2 c => rw [splitNN_one]; simp [lastSeg]
  | case3 a b rest h ih =>
    have hne := splitNN_ne_nil rest
    have hg : (a :: b :: rest) ++ t = a :: b :: (rest ++ t) := rfl
    rw [hg, splitNN_cons2 a b (rest ++ t), if_pos h, splitNN_cons2 a b rest, if_pos h,
      ih, dropLast_cons_ne _ _ hne, lastSeg_cons _ _ hne]
    rfl
  | case4 a b rest h ih =>
    have hne := splitNN_ne_nil (b :: rest)
    have hg : (a :: b :: rest) ++ t = a :: b :: (rest ++ t) := rfl
    have hg2 : (b :: rest) ++ t = b :: (rest ++ t) := rfl
    rw [hg, splitNN_cons2 a b (rest ++ t), if_neg h, splitNN_cons2 a b rest, if_neg h,
      ← hg2, ih]
    cases hP : splitNN (b :: rest) with
    | nil => exact absurd hP hne
    | cons p ps =>
      cases ps with
      | nil =>
        have hp : p = b :: rest := splitNN_singleton hP
        subst hp
        rw [show consHead a [b :: rest] = [a :: b :: rest] from rfl,
          List.dropLast_single, List.dropLast_single,
          show lastSeg [b :: rest] = b :: rest from rfl,
          show lastSeg [a :: b :: rest] = a :: b :: rest from rfl,
          List.nil_append, List.nil_append,
          show (a :: b :: rest) ++ t = a :: b :: (rest ++ t) from rfl,
          splitNN_cons2 a b (rest ++ t), if_neg h]
        rfl
      | cons q qs =>
        simp only [consHead]
        rw [dropLast_cons_ne p (q :: qs) (by simp), dropLast_cons_ne (a :: p) (q :: qs) (by simp),
          lastSeg_cons p (q :: qs) (by simp), lastSeg_cons (a :: p) (q :: qs) (by simp)]
        rfl

theorem dropLast_append_ne {α : Type} (A Q : List α) (h : Q ≠ []) :
    (A ++ Q).dropLast = A ++ Q.dropLast := by
  induction A with
  | nil => simp
  | cons a A ih =>
    have hne : A ++ Q ≠ [] := by
      intro hc
      exact h (List.append_eq_nil.mp hc).2
    rw [List.cons_append, dropLast_cons_ne _ _ hne, ih, List.cons_append]

theorem lastSeg_append_ne (A Q : List (List Char)) (h : Q ≠ []) :
    lastSeg (A ++ Q) = lastSeg Q := by
  induction A with
  | nil => rfl
  | cons a A ih =>
    have hne : A ++ Q ≠ [] := by
      intro hc
      exact h (List.append_eq_nil.mp hc).2
    rw [List.cons_append, lastSeg_cons _ _ hne, ih]

/-- Processing two chunks in a row is the same as processing their
concatenation as one chunk. -/
theorem feedChunk_append (st : List (List Char × List Char) × List Char)
    (c1 c2 : List Char) :
    feedChunk (feedChunk st c1) c2 = feedChunk st (c1 ++ c2) := by
  unfold feedChunk
  have hassoc : st.2 ++ (c1 ++ c2) = (st.2 ++ c1) ++ c2 := (List.append_assoc _ _ _).symm
  rw [hassoc, splitNN_append (st.2 ++ c1) c2]
  have hQ := splitNN_ne_nil (lastSeg (splitNN (st.2 ++ c1)) ++ c2)
  rw [Prod.mk.injEq]
  constructor
  · rw [dropLast_append_ne _ _ hQ, List.filterMap_append, List.append_assoc]
  · rw [lastSeg_append_ne _ _ hQ]

theorem feedChunks_cons_join (cs : List (List Char)) :
    ∀ (c : List Char) (st : List (List Char × List Char) × List Char),
      List.foldl feedChunk st (c :: cs) = feedChunk st ((c :: cs).flatten) := by
  induction cs with
  | nil =>
    intro c st
    rw [List.flatten_cons, List.flatten_nil, List.append_nil]
    rfl
  | cons c2 cs ih =>
    intro c st
    rw [List.foldl_cons, ih c2 (feedChunk st c), feedChunk_append,
      List.flatten_cons, List.flatten_cons]
    rw [List.flatten_cons]

/-- C1.  Chunk-boundary invariance of the frame parser: for any event text
and any partition of it into consecutive chunks, feeding the chunks one at a
time through the buffer-append / split-on-double-newline / pop-remainder
loop yields the same ordered sequence of `(eventType, eventContent)` frames
(and the same final buffer) as feeding the entire text as a single chunk. -/
theorem chunk_boundary_invariance (text : List Char) (chunks : List (List Char))
    (h : chunks.flatten = text) : feedChunks chunks = feedChunks [text] := by
  cases chunks with
  | nil =>
    have ht : text = [] := h.symm
    subst ht
    rfl
  | cons c cs =>
    subst h
    show List.foldl feedChunk ([], []) (c :: cs) = _
    rw [feedChunks_cons_join cs c ([], [])]
    rfl

/-! ## Dispatch layer theorems -/

/-- C2 counterexample.  The dispatch loop has no terminal guard: after a
`completed` event has been processed, a later `status` frame on the same
stream still mutates the step state (the step list after
`completed, status` differs from the list after `completed` alone). -/
theorem terminal_no_guard_counterexample :
    (dispatchEvents
        [("completed", .ok (.obj [("result",
            .obj [("repo_name", .str "demo"), ("zip_path", .str "/tmp/demo.zip")])])),
         ("status", .ok (.obj [("status", .str "Cloning repository")]))]
        initialAppState).processingSteps
      ≠ (dispatchEvents
        [("completed", .ok (.obj [("result",
            .obj [("repo_name", .str "demo"), ("zip_path", .str "/tmp/demo.zip")])]))]
        initialAppState).processingSteps := by
  decide

/-- C2 as amended: a terminal event (`completed`, `error`, `message_stop`
with a successfully parsed, non-`null` payload) clears the loading flag and
does not itself touch step or endpoint state, but it does not terminate the
session — later `status` / `endpoints` frames are still dispatched and can
mutate state (see the counterexample). -/
theorem terminal_event_effects (st : AppState) (t : String) (data : Json)
    (ht : t = "completed" ∨ t = "error" ∨ t = "message_stop")
    (hd : data ≠ Json.null) :
    (dispatchEvent st t (.ok data)).loading = false
    ∧ (dispatchEvent st t (.ok data)).processingSteps = st.processingSteps
    ∧ (dispatchEvent st t (.ok data)).endpoints = st.endpoints := by
  rcases ht with rfl | rfl | rfl <;>
    cases data <;>
    first
      | exact absurd rfl hd
      | exact ⟨rfl, rfl, rfl⟩

/-- Witness for C2's amended statement at a concrete `completed` event. -/
theorem terminal_event_effects_witness :
    (dispatchEvent initialAppState "completed"
        (.ok (.obj [("result", .str "r")]))).loading = false
    ∧ (dispatchEvent initialAppState "completed"
        (.ok (.obj [("result", .str "r")]))).processingSteps = initialAppState.processingSteps
    ∧ (dispatchEvent initialAppState "completed"
        (.ok (.obj [("result", .str "r")]))).endpoints = initialAppState.endpoints :=
  terminal_event_effects initialAppState "completed" (.obj [("result", .str "r")])
    (Or.inl rfl) (fun h => Json.noConfusion h)

theorem handleStatus_eqee {a b : AppState} (h : EqExceptError a b) (data : Json) :
    EqExceptError (handleStatus a data) (handleStatus b data) := by
  obtain ⟨hl, he, hp, hs⟩ := h
  unfold handleStatus
  cases hpa : propAccess data "status" with
  | error m => exact ⟨hl, he, hp, hs⟩
  | ok vo =>
    cases vo with
    | none => exact ⟨hl, he, hp, hs⟩
    | some v =>
      dsimp only
      cases htr : jsTruthy v with
      | false => exact ⟨hl, he, hp, hs⟩
      | true =>
        cases v with
        | str s =>
          refine ⟨hl, he, hp, ?_⟩
          show updateProcessingStep s a.processingSteps = updateProcessingStep s b.processingSteps
          rw [hs]
        | arr elems =>
          refine ⟨hl, he, hp, ?_⟩
          show updateProcessingStepArr elems a.processingSteps
            = updateProcessingStepArr elems b.processingSteps
          rw [hs]
        | null => exact ⟨hl, he, hp, hs⟩
        | bool x => exact ⟨hl, he, hp, hs⟩
        | num x => exact ⟨hl, he, hp, hs⟩
        | obj x => exact ⟨hl, he, hp, hs⟩

theorem handleEndpoints_eqee {a b : AppState} (h : EqExceptError a b) (data : Json) :
    EqExceptError (handleEndpoints a data) (handleEndpoints b data) := by
  obtain ⟨hl, he, hp, hs⟩ := h
  unfold handleEndpoints
  cases hpa : propAccess data "endpoints" with
  | error m => exact ⟨hl, he, hp, hs⟩
  | ok vo =>
    cases vo with
    | none => exact ⟨hl, he, hp, hs⟩
    | some v =>
      cases v with
      | arr elems =>
        dsimp only
        cases han : elems.any isNullJson with
        | true => exact ⟨hl, he, hp, hs⟩
        | false => exact ⟨hl, rfl, hp, hs⟩
      | null => exact ⟨hl, he, hp, hs⟩
      | bool x => exact ⟨hl, he, hp, hs⟩
      | num x => exact ⟨hl, he, hp, hs⟩
      | str x => exact ⟨hl, he, hp, hs⟩
      | obj x => exact ⟨hl, he, hp, hs⟩

theorem handleCompleted_eqee {a b : AppState} (h : EqExceptError a b) (data : Json) :
    EqExceptError (handleCompleted a data) (handleCompleted b data) := by
  obtain ⟨hl, he, hp, hs⟩ := h
  unfold handleCompleted
  cases hpa : propAccess data "result" with
  | error m => exact ⟨hl, he, hp, hs⟩
  | ok r =>
    refine ⟨rfl, he, ?_, hs⟩
    show (if truthyOpt r = true then r else a.projectData)
      = (if truthyOpt r = true then r else b.projectData)
    rw [hp]

theorem handleError_eqee {a b : AppState} (h : EqExceptError a b) (data : Json) :
    EqExceptError (handleError a data) (handleError b data) := by
  obtain ⟨hl, he, hp, hs⟩ := h
  unfold handleError
  cases hpa : propAccess data "error" with
  | error m => exact ⟨hl, he, hp, hs⟩
  | ok v => exact ⟨rfl, he, hp, hs⟩

/-- Dispatching one frame preserves agreement on everything except the
`error` field: no case of the switch reads the error state. -/
theorem dispatchEvent_eqee {a b : AppState} (h : EqExceptError a b) (t : String)
    (p : Except String Json) :
    EqExceptError (dispatchEvent a t p) (dispatchEvent b t p) := by
  cases p with
  | error msg => exact ⟨h.1, h.2.1, h.2.2.1, h.2.2.2⟩
  | ok data =>
    unfold dispatchEvent
    split_ifs
    · exact handleStatus_eqee h data
    · exact handleEndpoints_eqee h data
    · exact handleCompleted_eqee h data
    · exact handleError_eqee h data
    · exact ⟨rfl, h.2.1, h.2.2.1, h.2.2.2⟩
    · exact h

theorem dispatchEvents_eqee {a b : AppState} (h : EqExceptError a b)
    (ys : List (String × Except String Json)) :
    EqExceptError (dispatchEvents ys a) (dispatchEvents ys b) := by
  induction ys generalizing a b with
  | nil => exact h
  | cons e ys ih => exact ih (dispatchEvent_eqee h e.1 e.2)

/-- C6.  Decode-failure recovery: a frame whose payload failed to parse
leaves the loading flag, the step state, the endpoint list and the result
untouched, reports the failure in the error state, and every subsequent
frame is dispatched exactly as it would have been without the malformed
frame (same loading, endpoints, result and step state afterwards). -/
theorem decode_failure_recovery (st : AppState) (t msg : String)
    (ys : List (String × Except String Json)) :
    (dispatchEvent st t (.error msg)).loading = st.loading
    ∧ (dispatchEvent st t (.error msg)).processingSteps = st.processingSteps
    ∧ (dispatchEvent st t (.error msg)).endpoints = st.endpoints
    ∧ (dispatchEvent st t (.error msg)).projectData = st.projectData
    ∧ (dispatchEvent st t (.error msg)).error
        = some (.str ("Error parsing event data: " ++ msg))
    ∧ EqExceptError (dispatchEvents ys (dispatchEvent st t (.error msg)))
        (dispatchEvents ys st) :=
  ⟨rfl, rfl, rfl, rfl, rfl,
   @dispatchEvents_eqee (dispatchEvent st t (.error msg)) st ⟨rfl, rfl, rfl, rfl⟩ ys⟩

/-- C7 counterexample.  Two consecutive `endpoints` events with array
payloads where the second array contains `null`: reading `method` of `null`
throws inside the `.map` callback, the error is caught, `setEndpoints`
never runs, and the endpoint list stays the normalized FIRST list instead
of becoming the normalized second list. -/
theorem endpoint_replacement_counterexample :
    (dispatchEvents
        [("endpoints", .ok (.obj [("endpoints",
            .arr [.obj [("method", .str "POST"), ("path", .str "/a")]])])),
         ("endpoints", .ok (.obj [("endpoints", .arr [Json.null])]))]
        initialAppState).endpoints
      = [⟨.str "POST", .str "/a", .str ""⟩]
    ∧ [Json.null].map formatEndpoint = [⟨.str "GET", .str "", .str ""⟩]
    ∧ ([⟨Json.str "POST", Json.str "/a", Json.str ""⟩] : List FormattedEndpoint)
        ≠ [⟨Json.str "GET", Json.str "", Json.str ""⟩] := by
  refine ⟨rfl, rfl, ?_⟩
  intro hc
  rw [List.cons.injEq] at hc
  rw [FormattedEndpoint.mk.injEq] at hc
  obtain ⟨⟨hm, _, _⟩, _⟩ := hc
  rw [Json.str.injEq] at hm
  exact absurd hm (by decide)

/-- C7 as amended: for two consecutive `endpoints` events carrying array
payloads, if the second array has no `null` record then the endpoint list
after both events is exactly the normalized second list — wholesale
replacement, nothing of the first list survives. -/
theorem endpoint_replacement (st : AppState) (d1 d2 : Json) (xs ys : List Json)
    (h1 : getField d1 "endpoints" = some (Json.arr xs))
    (h2 : getField d2 "endpoints" = some (Json.arr ys))
    (hys : ys.any isNullJson = false) :
    (dispatchEvent (dispatchEvent st "endpoints" (.ok d1)) "endpoints" (.ok d2)).endpoints
      = ys.map formatEndpoint := by
  have key : ∀ s : AppState,
      (dispatchEvent s "endpoints" (.ok d2)).endpoints = ys.map formatEndpoint := by
    intro s
    have hx : dispatchEvent s "endpoints" (.ok d2) = handleEndpoints s d2 := rfl
    rw [hx]
    unfold handleEndpoints
    cases d2 with
    | obj fields =>
      have hpa : propAccess (Json.obj fields) "endpoints"
          = .ok (some (Json.arr ys)) := by
        rw [show propAccess (Json.obj fields) "endpoints"
              = .ok (getField (Json.obj fields) "endpoints") from rfl, h2]
      rw [hpa]
      dsimp only
      rw [hys]
      rfl
    | null => exact Option.noConfusion h2
    | bool x => exact Option.noConfusion h2
    | num x => exact Option.noConfusion h2
    | str x => exact Option.noConfusion h2
    | arr x => exact Option.noConfusion h2
  exact key (dispatchEvent st "endpoints" (.ok d1))

/-- Witness for C7's amended statement at two concrete endpoint lists. -/
theorem endpoint_replacement_witness :
    (dispatchEvent (dispatchEvent initialAppState "endpoints"
        (.ok (.obj [("endpoints", .arr [.obj [("method", .str "POST")]])])))
      "endpoints"
      (.ok (.obj [("endpoints", .arr [.obj [("path", .str "/b")]])]))).endpoints
      = [Json.obj [("path", .str "/b")]].map formatEndpoint :=
  endpoint_replacement initialAppState
    (.obj [("endpoints", .arr [.obj [("method", .str "POST")]])])
    (.obj [("endpoints", .arr [.obj [("path", .str "/b")]])])
    [.obj [("method", .str "POST")]] [.obj [("path", .str "/b")]]
    rfl rfl rfl

/-- C8 counterexample.  A record whose `method` field is present but holds
the empty string is normalized to `'GET'`, not to its present value: the
`||` chain defaults on every falsy value, not only on absent fields. -/
theorem endpoint_normalization_counterexample :
    getField (Json.obj [("method", Json.str ""), ("path", Json.str "/x")]) "method"
        = some (Json.str "")
    ∧ (formatEndpoint (.obj [("method", .str ""), ("path", .str "/x")])).method
        = Json.str "GET"
    ∧ Json.str "" ≠ Json.str "GET" := by
  refine ⟨rfl, rfl, ?_⟩
  intro hc
  rw [Json.str.injEq] at hc
  exact absurd hc (by decide)

/-- C8 as amended: the normalization agrees everywhere with the rule
"a field's value is used only when the field is present with a truthy
value; otherwise `method` defaults to `'GET'`, `path` falls back to the
`path` field and then the empty string, and `description` falls back to
`summary` and then the empty string". -/
theorem endpoint_normalization (r : Json) :
    formatEndpoint r = specFormatEndpoint r := by
  unfold formatEndpoint specFormatEndpoint jsOr
  cases hm : getField r "method" <;> cases hn : getField r "endpointName" <;>
    cases hpa : getField r "path" <;> cases hd : getField r "description" <;>
      cases hs : getField r "summary" <;> rfl

theorem scanFold_event (lines : List (List Char)) :
    ∀ acc : List Char × List Char, (List.foldl scanStep acc lines).1 ≠ [] →
      acc.1 ≠ [] ∨ ∃ l ∈ lines, eventMarker.isPrefixOf l = true := by
  induction lines with
  | nil => intro acc h; exact Or.inl h
  | cons l ls ih =>
    intro acc h
    rw [List.foldl_cons] at h
    rcases ih (scanStep acc l) h with h' | ⟨l', hl', hpre⟩
    · unfold scanStep at h'
      by_cases he : eventMarker.isPrefixOf l = true
      · exact Or.inr ⟨l, List.mem_cons_self l ls, he⟩
      · rw [if_neg he] at h'
        by_cases hd : dataMarker.isPrefixOf l = true
        · rw [if_pos hd] at h'
          exact Or.inl h'
        · rw [if_neg hd] at h'
          exact Or.inl h'
    · exact Or.inr ⟨l', List.mem_cons_of_mem l hl', hpre⟩

theorem scanFold_data (lines : List (List Char)) :
    ∀ acc : List Char × List Char, (List.foldl scanStep acc lines).2 ≠ [] →
      acc.2 ≠ [] ∨ ∃ l ∈ lines, dataMarker.isPrefixOf l = true := by
  induction lines with
  | nil => intro acc h; exact Or.inl h
  | cons l ls ih =>
    intro acc h
    rw [List.foldl_cons] at h
    rcases ih (scanStep acc l) h with h' | ⟨l', hl', hpre⟩
    · unfold scanStep at h'
      by_cases he : eventMarker.isPrefixOf l = true
      · rw [if_pos he] at h'
        exact Or.inl h'
      · rw [if_neg he] at h'
        by_cases hd : dataMarker.isPrefixOf l = true
        · exact Or.inr ⟨l, List.mem_cons_self l ls, hd⟩
        · rw [if_neg hd] at h'
          exact Or.inl h'
    · exact Or.inr ⟨l', List.mem_cons_of_mem l hl', hpre⟩

theorem hasNN_cons2 (a b : Char) (rest : List Char) :
    hasNN (a :: b :: rest) =
      if a = '\n' ∧ b = '\n' then true else hasNN (b :: rest) := rfl

/-- The last segment of a split never contains the terminator: nothing
terminated is ever left in the buffer. -/
theorem hasNN_lastSeg_splitNN (s : List Char) :
    hasNN (lastSeg (splitNN s)) = false := by
  induction s using splitNN.induct with
  | case1 => rfl
  | case2 c => rfl
  | case3 a b rest h ih =>
    rw [splitNN_cons2, if_pos h, lastSeg_cons _ _ (splitNN_ne_nil rest)]
    exact ih
  | case4 a b rest h ih =>
    rw [splitNN_cons2, if_neg h]
    cases hP : splitNN (b :: rest) with
    | nil => exact absurd hP (splitNN_ne_nil (b :: rest))
    | cons p ps =>
      rw [hP] at ih
      cases ps with
      | nil =>
        have hp : p = b :: rest := splitNN_singleton hP
        subst hp
        rw [show consHead a [b :: rest] = [a :: b :: rest] from rfl,
          show lastSeg [a :: b :: rest] = a :: b :: rest from rfl,
          hasNN_cons2, if_neg h]
        rw [show lastSeg [b :: rest] = b :: rest from rfl] at ih
        exact ih
      | cons q qs =>
        rw [show consHead a (p :: q :: qs) = (a :: p) :: q :: qs from rfl,
          lastSeg_cons _ _ (by simp)]
        rw [lastSeg_cons _ _ (by simp)] at ih
        exact ih

/-- C5 counterexample.  A terminated segment with neither marker line
(`"hello\n\n"`) yields no frame, but the partial text does NOT remain in the
buffer: the segment is consumed and discarded, and the buffer comes out
empty. -/
theorem frame_completeness_counterexample :
    (feedChunk ([], []) "hello\n\n".toList).1 = []
    ∧ (feedChunk ([], []) "hello\n\n".toList).2 = []
    ∧ "hello".toList ≠ [] := by
  refine ⟨rfl, rfl, ?_⟩
  decide

/-- C5 as amended: a frame is yielded only when the terminator has been
seen and the terminated segment contains a line beginning with `event: `
and a line beginning with `data: ` (with nonempty text after each marker);
only text not yet followed by a terminator stays in the buffer — a
terminated segment lacking either marker is discarded, not buffered. -/
theorem frame_completeness :
    (∀ (seg t c : List Char), parseFrame seg = some (t, c) →
      (∃ l ∈ splitLines seg, eventMarker.isPrefixOf l = true)
      ∧ (∃ l ∈ splitLines seg, dataMarker.isPrefixOf l = true))
    ∧ (∀ (st : List (List Char × List Char) × List Char) (chunk : List Char),
      hasNN (feedChunk st chunk).2 = false) := by
  constructor
  · intro seg t c h
    unfold parseFrame at h
    by_cases hb : (jsTrim seg).isEmpty = true
    · rw [if_pos hb] at h
      exact Option.noConfusion h
    · rw [if_neg hb] at h
      by_cases hcond : (scanFrameLines (splitLines seg)).1.isEmpty = true
          ∨ (scanFrameLines (splitLines seg)).2.isEmpty = true
      · rw [if_pos hcond] at h
        exact Option.noConfusion h
      · obtain ⟨hA, hB⟩ := not_or.mp hcond
        have h1 : (List.foldl scanStep ([], []) (splitLines seg)).1 ≠ [] := by
          intro hc
          exact hA (by show (scanFrameLines (splitLines seg)).1.isEmpty = true; rw [show scanFrameLines (splitLines seg) = List.foldl scanStep ([], []) (splitLines seg) from rfl, hc]; rfl)
        have h2 : (List.foldl scanStep ([], []) (splitLines seg)).2 ≠ [] := by
          intro hc
          exact hB (by show (scanFrameLines (splitLines seg)).2.isEmpty = true; rw [show scanFrameLines (splitLines seg) = List.foldl scanStep ([], []) (splitLines seg) from rfl, hc]; rfl)
        constructor
        · rcases scanFold_event (splitLines seg) ([], []) h1 with hfalse | hex
          · exact absurd rfl hfalse
          · exact hex
        · rcases scanFold_data (splitLines seg) ([], []) h2 with hfalse | hex
          · exact absurd rfl hfalse
          · exact hex
  · intro st chunk
    exact hasNN_lastSeg_splitNN (st.2 ++ chunk)

/-- Witness for C5's amended statement at a concrete frame and chunk. -/
theorem frame_completeness_witness :
    ((∃ l ∈ splitLines "event: a\ndata: b".toList, eventMarker.isPrefixOf l = true)
      ∧ (∃ l ∈ splitLines "event: a\ndata: b".toList, dataMarker.isPrefixOf l = true))
    ∧ hasNN (feedChunk ([], []) "event: a\ndata: b\n\npartial".toList).2 = false :=
  ⟨frame_completeness.1 "event: a\ndata: b".toList "a".toList "b".toList (by decide),
   frame_completeness.2 ([], []) "event: a\ndata: b\n\npartial".toList⟩

/-- Witness for C1 at a concrete event text split into three chunks, one of
which splits the terminator itself. -/
theorem chunk_boundary_invariance_witness :
    (["event: st".toList, "atus\ndata: ping\n".toList, "\nevent: done\ndata: ok\n\n".toList].flatten
        = "event: status\ndata: ping\n\nevent: done\ndata: ok\n\n".toList)
      ∧ feedChunks ["event: st".toList, "atus\ndata: ping\n".toList, "\nevent: done\ndata: ok\n\n".toList]
        = feedChunks ["event: status\ndata: ping\n\nevent: done\ndata: ok\n\n".toList] :=
  ⟨by decide,
   chunk_boundary_invariance _ _ (by decide)⟩

end FBApp
